import Mathlib

/-!
Shallow embedding of the data-preparation utilities in
`torchtune/data/_utils.py`: the sequence truncator `truncate`, the tag
splitter `split_text_by_image_tag`, and the conversation validator
`validate_messages`, together with theorems settling the specification
claims about them.

Python strings are modelled as `List Char`, Python lists as Lean lists,
and a Python call that can raise is modelled as `Except`.
-/

namespace TorchtuneData

/-- Python runtime errors that the embedded code can raise.  The only
uncaught exception reachable in `truncate` is the `IndexError` from
evaluating `tokens_truncated[-1]` on an empty list. -/
inductive PyErr : Type
  | indexError : PyErr
deriving DecidableEq

/-- Python slice `l[:n]` for an integer bound `n`: for `n ≥ 0` it is the
first `n` elements; for `n < 0` it is the first `len(l) + n` elements,
clamped at zero (standard Python slice semantics). -/
def pySliceTo {α : Type} (n : Int) (l : List α) : List α :=
  if 0 ≤ n then l.take n.toNat else l.take (l.length - (-n).toNat)

/-- Embedding of `truncate(tokens, max_seq_len, eos_id=None)`:
`tokens_truncated = tokens[:max_seq_len]`; then, only when `eos_id` is
provided, `tokens_truncated[-1]` is compared with `eos_id` (raising
`IndexError` on an empty slice) and replaced by `eos_id` when different. -/
def truncate {α : Type} [DecidableEq α] (tokens : List α) (max_seq_len : Int)
    (eos_id : Option α) : Except PyErr (List α) :=
  let tokens_truncated := pySliceTo max_seq_len tokens
  match eos_id with
  | none => Except.ok tokens_truncated
  | some eos =>
    match tokens_truncated.getLast? with
    | none => Except.error PyErr.indexError
    | some last =>
      if last ≠ eos then Except.ok (tokens_truncated.dropLast ++ [eos])
      else Except.ok tokens_truncated

/-- State-threaded embedding of `truncate` for the frame property: the
second component tracks the caller's list `tokens` across every statement
of the body.  `tokens[:max_seq_len]` allocates a fresh list, and the only
write in the body, `tokens_truncated[-1] = eos_id`, targets that fresh
list, so no statement ever writes to the caller's list. -/
def truncateFrame {α : Type} [DecidableEq α] (tokens : List α) (max_seq_len : Int)
    (eos_id : Option α) : Except PyErr (List α) × List α :=
  let callerList := tokens
  let tokens_truncated := pySliceTo max_seq_len callerList
  match eos_id with
  | none => (Except.ok tokens_truncated, callerList)
  | some eos =>
    match tokens_truncated.getLast? with
    | none => (Except.error PyErr.indexError, callerList)
    | some last =>
      if last ≠ eos then (Except.ok (tokens_truncated.dropLast ++ [eos]), callerList)
      else (Except.ok tokens_truncated, callerList)

theorem pySliceTo_natCast {α : Type} (n : Nat) (l : List α) :
    pySliceTo (n : Int) l = l.take n := by
  simp [pySliceTo]

/-- C6: for every token sequence `t` and bound `n`, the truncated result
has length `min (len t) n`, and when `n ≥ len t` with no `eos_id` the
sequence is returned unchanged. -/
theorem truncate_length_min (t : List Int) (n : Nat) :
    truncate t (n : Int) none = Except.ok (t.take n) ∧
    (t.take n).length = min t.length n ∧
    (t.length ≤ n → truncate t (n : Int) none = Except.ok t) := by
  refine ⟨?_, ?_, ?_⟩
  · simp [truncate, pySliceTo_natCast]
  · simp [List.length_take, Nat.min_comm]
  · intro h
    simp [truncate, pySliceTo_natCast, List.take_of_length_le h]

/-- Witness for C6 at `t = [1,2,3]`, `n = 5`. -/
theorem truncate_length_min_witness :
    truncate ([1, 2, 3] : List Int) ((5 : Nat) : Int) none = Except.ok [1, 2, 3] :=
  (truncate_length_min [1, 2, 3] 5).2.2 (by decide)

/-- C5: with a positive bound, a provided `eos_id`, and a non-empty
truncated prefix, the result is the prefix with its last element replaced
by `eos_id` (which is the prefix itself when the last element already
equals `eos_id`), so the last element of the result is `eos_id`. -/
theorem truncate_eos (tokens : List Int) (n : Nat) (eos : Int)
    (hn : 0 < n) (hne : tokens.take n ≠ []) :
    truncate tokens (n : Int) (some eos) =
      Except.ok ((tokens.take n).dropLast ++ [eos]) ∧
    ((tokens.take n).getLast? = some eos →
      truncate tokens (n : Int) (some eos) = Except.ok (tokens.take n)) ∧
    (truncate tokens (n : Int) (some eos)).toOption.bind List.getLast? = some eos := by
  have hpre : pySliceTo (n : Int) tokens = tokens.take n := pySliceTo_natCast n tokens
  obtain ⟨last, hl⟩ := Option.isSome_iff_exists.mp (List.getLast?_isSome.mpr hne)
  by_cases heq : last = eos
  · subst heq
    have hdl : (tokens.take n).dropLast ++ [last] = tokens.take n :=
      List.dropLast_append_getLast? last hl
    refine ⟨?_, ?_, ?_⟩ <;>
      simp [truncate, hpre, hl, hdl, Except.toOption]
  · have h1 : truncate tokens (n : Int) (some eos) =
        Except.ok ((tokens.take n).dropLast ++ [eos]) := by
      simp [truncate, hpre, hl, heq]
    refine ⟨h1, ?_, ?_⟩
    · intro hcon
      rw [hl] at hcon
      exact absurd (Option.some_injective _ hcon) heq
    · simp [h1, Except.toOption, List.getLast?_concat]

/-- Witness for C5: the spec examples `truncate([1,2,3], 5, eos_id=9) == [1,2,9]`
and `truncate([1,2,9], 5, eos_id=9) == [1,2,9]`. -/
theorem truncate_eos_witness :
    truncate ([1, 2, 3] : List Int) ((5 : Nat) : Int) (some 9) = Except.ok [1, 2, 9] ∧
    truncate ([1, 2, 9] : List Int) ((5 : Nat) : Int) (some 9) = Except.ok [1, 2, 9] := by
  constructor
  · simpa using (truncate_eos [1, 2, 3] 5 9 (by decide) (by decide)).1
  · simpa using (truncate_eos [1, 2, 9] 5 9 (by decide) (by decide)).2.1 (by decide)

/-- C4 counterexample: `truncate` does not reject non-positive
`max_seq_len` as a malformed parameter.  At `max_seq_len = -1` with no
`eos_id` it simply returns a result under Python slice semantics, and at
`max_seq_len = 0` with an `eos_id` it raises the uncaught `IndexError`
from `tokens_truncated[-1]` on the empty slice, not an
argument-validation error. -/
theorem truncate_no_invalid_argument_check :
    truncate ([1, 2, 3] : List Int) (-1 : Int) none = Except.ok [1, 2] ∧
    truncate ([1, 2, 3] : List Int) (0 : Int) (some 9) = Except.error PyErr.indexError := by
  constructor <;> rfl

/-- C4 amended: with `max_seq_len = 0` and an `eos_id` provided,
`truncate` fails, but with the `IndexError` raised by reading the last
element of the empty prefix rather than with a parameter-validation
error; `max_seq_len = 0` without `eos_id` returns the empty list, and a
negative `max_seq_len` is interpreted by Python slice semantics and
returns a result. -/
theorem truncate_zero_faults_index_error :
    (∀ (tokens : List Int) (eos : Int),
      truncate tokens (0 : Int) (some eos) = Except.error PyErr.indexError) ∧
    (∀ tokens : List Int, truncate tokens (0 : Int) none = Except.ok []) ∧
    truncate ([1, 2, 3] : List Int) (-1 : Int) none = Except.ok [1, 2] := by
  refine ⟨fun tokens eos => ?_, fun tokens => ?_, rfl⟩ <;>
    simp [truncate, pySliceTo]

/-- C8: `truncate` never mutates the caller's list: in the state-threaded
embedding the caller's list after the call is always the input list, and
the returned value agrees with the pure embedding. -/
theorem truncate_frame (tokens : List Int) (max_seq_len : Int) (eos_id : Option Int) :
    (truncateFrame tokens max_seq_len eos_id).2 = tokens ∧
    (truncateFrame tokens max_seq_len eos_id).1 = truncate tokens max_seq_len eos_id := by
  cases eos_id with
  | none => exact ⟨rfl, rfl⟩
  | some eos =>
    cases h : (pySliceTo max_seq_len tokens).getLast? with
    | none =>
      constructor <;> simp [truncateFrame, truncate, h]
    | some last =>
      by_cases heq : last = eos <;>
        constructor <;> simp [truncateFrame, truncate, h, heq]

/-- A typed unit of message content: an image placeholder (`{"type": "image"}`)
or a text run (`{"type": "text", "content": ...}`). -/
inductive ContentSegment : Type
  | image : ContentSegment
  | text : List Char → ContentSegment
deriving DecidableEq

/-- First occurrence of `sep` in `s`, scanning left to right: `some (b, a)`
means `s = b ++ sep ++ a` with `b` the shortest such prefix; `none` means
`sep` does not occur in `s`. -/
def splitFirst (sep : List Char) : List Char → Option (List Char × List Char)
  | [] => if sep.isPrefixOf ([] : List Char) then some ([], []) else none
  | c :: rest =>
    if sep.isPrefixOf (c :: rest) then some ([], (c :: rest).drop sep.length)
    else
      match splitFirst sep rest with
      | none => none
      | some (b, a) => some (c :: b, a)

/-- Fuelled worker for the split: each step removes the first occurrence
of `sep`.  For a non-empty `sep`, fuel `s.length` always suffices. -/
def pySplitFuel (sep : List Char) : Nat → List Char → List (List Char)
  | 0, s => [s]
  | fuel + 1, s =>
    match splitFirst sep s with
    | none => [s]
    | some (b, a) => b :: pySplitFuel sep fuel a

/-- Embedding of Python `content.split(sep)` for a non-empty separator:
split on every non-overlapping occurrence of `sep`, left to right,
producing N+1 fragments for N occurrences.  (Python raises on an empty
separator; the claims only concern non-empty tags, and the fuel floor
makes the function total regardless.) -/
def pySplit (sep s : List Char) : List (List Char) :=
  pySplitFuel sep s.length s

/-- Fuelled worker counting non-overlapping occurrences of `sep`,
scanning greedily left to right. -/
def countOccFuel (sep : List Char) : Nat → List Char → Nat
  | 0, _ => 0
  | fuel + 1, s =>
    match splitFirst sep s with
    | none => 0
    | some (_, a) => countOccFuel sep fuel a + 1

/-- Number of non-overlapping occurrences of `sep` in `s` (left-to-right
greedy count, matching Python `s.count(sep)` for non-empty `sep`). -/
def countOcc (sep s : List Char) : Nat :=
  countOccFuel sep s.length s

/-- Embedding of the loop body of `split_text_by_image_tag`: for each
fragment in enumeration order, append a `text` segment when the fragment
is non-empty (`len(substr) > 0`), and append an `image` segment whenever
the fragment is not the last one (`i < len(split_content) - 1`). -/
def segsOf : List (List Char) → List ContentSegment
  | [] => []
  | [substr] => if 0 < substr.length then [ContentSegment.text substr] else []
  | substr :: next :: rest =>
    (if 0 < substr.length then [ContentSegment.text substr] else []) ++
      ContentSegment.image :: segsOf (next :: rest)

/-- Embedding of `split_text_by_image_tag(content, image_tag)`:
`split_content = content.split(image_tag)` followed by the accumulation
loop over the enumerated fragments. -/
def split_text_by_image_tag (content image_tag : List Char) : List ContentSegment :=
  segsOf (pySplit image_tag content)

/-- `joinWith sep [x₁, …, xₖ] = x₁ ++ sep ++ x₂ ++ … ++ sep ++ xₖ`: one
copy of the separator between each pair of adjacent pieces. -/
def joinWith {α : Type} (sep : List α) : List (List α) → List α
  | [] => []
  | [x] => x
  | x :: y :: rest => x ++ sep ++ joinWith sep (y :: rest)

/-- Segment list described by the specification: walk the fragments in
order, a `text` segment for each non-empty fragment (empty fragments
dropped), and exactly one `image` segment after every fragment except the
last. -/
def specSegs (frags : List (List Char)) : List ContentSegment :=
  joinWith [ContentSegment.image]
    (frags.map fun f => if f = [] then [] else [ContentSegment.text f])

/-- Spec-side reconstruction of C3: concatenate the `text` payloads in
output order with one copy of the tag inserted at the position of each
`image` segment. -/
def reconstructSegs (tag : List Char) : List ContentSegment → List Char
  | [] => []
  | ContentSegment.text t :: rest => t ++ reconstructSegs tag rest
  | ContentSegment.image :: rest => tag ++ reconstructSegs tag rest

theorem isPrefixOf_append (l1 l2 : List Char) :
    l1.isPrefixOf l2 = true ↔ ∃ t, l1 ++ t = l2 := by
  rw [ List.isPrefixOf_iff_prefix]
  exact Iff.rfl

theorem splitFirst_eq_some (sep : List Char) :
    ∀ s b a, splitFirst sep s = some (b, a) → s = b ++ sep ++ a := by
  intro s
  induction s with
  | nil =>
    intro b a h
    simp only [splitFirst] at h
    split at h
    · obtain ⟨t, ht⟩ := (isPrefixOf_append sep []).mp (by assumption)
      obtain ⟨hsep, hta⟩ := List.append_eq_nil.mp ht
      obtain ⟨hb, ha⟩ := Prod.mk.injEq .. ▸ Option.some_injective _ h
      simp [← hb, ← ha, hsep]
    · exact absurd h (by simp)
  | cons c rest ih =>
    intro b a h
    simp only [splitFirst] at h
    split at h
    · next hp =>
      obtain ⟨t, ht⟩ := (isPrefixOf_append sep (c :: rest)).mp hp
      obtain ⟨hb, ha⟩ := Prod.mk.injEq .. ▸ Option.some_injective _ h
      subst hb
      rw [← ha, ← ht, List.drop_left]
      simp
    · next hp =>
      cases hsf : splitFirst sep rest with
      | none => rw [hsf] at h; exact absurd h (by simp)
      | some ba =>
        obtain ⟨b2, a2⟩ := ba
        rw [hsf] at h
        obtain ⟨hb, ha⟩ := Prod.mk.injEq .. ▸ Option.some_injective _ h
        have hr := ih b2 a2 hsf
        subst hb ha
        simp [hr]

theorem splitFirst_length_lt (sep : List Char) (hsep : sep ≠ []) (s b a : List Char)
    (h : splitFirst sep s = some (b, a)) : a.length < s.length := by
  have hd := splitFirst_eq_some sep s b a h
  have hpos : 0 < sep.length := List.length_pos.mpr hsep
  rw [hd]
  simp only [List.length_append]
  omega

theorem splitFirst_nil_eq_none (sep : List Char) (hsep : sep ≠ []) :
    splitFirst sep [] = none := by
  cases sep with
  | nil => exact absurd rfl hsep
  | cons c cs => simp [splitFirst, List.isPrefixOf]

theorem splitFirst_eq_none_iff (sep : List Char) :
    ∀ s, splitFirst sep s = none ↔ ¬ ∃ b a, s = b ++ sep ++ a := by
  intro s
  induction s with
  | nil =>
    constructor
    · intro h ⟨b, a, hba⟩
      obtain ⟨hb, hrest⟩ := List.append_eq_nil.mp (List.append_assoc b sep a ▸ hba.symm)
      obtain ⟨hsep, ha⟩ := List.append_eq_nil.mp hrest
      rw [hsep] at h
      simp [splitFirst] at h
    · intro h
      cases hsf : splitFirst sep [] with
      | none => rfl
      | some ba =>
        obtain ⟨b, a⟩ := ba
        exact absurd ⟨b, a, splitFirst_eq_some sep [] b a hsf⟩ h
  | cons c rest ih =>
    constructor
    · intro h ⟨b, a, hba⟩
      simp only [splitFirst] at h
      cases b with
      | nil =>
        have hp : sep.isPrefixOf (c :: rest) = true :=
          (isPrefixOf_append sep (c :: rest)).mpr ⟨a, by simpa using hba.symm⟩
        rw [hp] at h
        simp at h
      | cons c2 b2 =>
        have hc : c2 = c := by simpa using congrArg (List.headD · ' ') hba.symm
        have hrest : rest = b2 ++ sep ++ a := by
          have := congrArg List.tail hba
          simpa using this
        split at h
        · simp at h
        · cases hsf : splitFirst sep rest with
          | none => exact absurd ⟨b2, a, hrest⟩ (ih.mp hsf)
          | some ba2 => rw [hsf] at h; obtain ⟨x, y⟩ := ba2; simp at h
    · intro h
      cases hsf : splitFirst sep (c :: rest) with
      | none => rfl
      | some ba =>
        obtain ⟨b, a⟩ := ba
        exact absurd ⟨b, a, splitFirst_eq_some sep (c :: rest) b a hsf⟩ h

theorem pySplitFuel_congr (sep : List Char) (hsep : sep ≠ []) :
    ∀ fuel fuel2 s, s.length ≤ fuel → s.length ≤ fuel2 →
      pySplitFuel sep fuel s = pySplitFuel sep fuel2 s := by
  intro fuel
  induction fuel with
  | zero =>
    intro fuel2 s h1 _
    have hs : s = [] := List.length_eq_zero.mp (Nat.le_zero.mp h1)
    subst hs
    cases fuel2 with
    | zero => rfl
    | succ m => simp [pySplitFuel, splitFirst_nil_eq_none sep hsep]
  | succ n ih =>
    intro fuel2 s h1 h2
    cases fuel2 with
    | zero =>
      have hs : s = [] := List.length_eq_zero.mp (Nat.le_zero.mp h2)
      subst hs
      simp [pySplitFuel, splitFirst_nil_eq_none sep hsep]
    | succ m =>
      simp only [pySplitFuel]
      cases hsf : splitFirst sep s with
      | none => rfl
      | some ba =>
        obtain ⟨b, a⟩ := ba
        have hlt := splitFirst_length_lt sep hsep s b a hsf
        show b :: pySplitFuel sep n a = b :: pySplitFuel sep m a
        rw [ih m a (by omega) (by omega)]

theorem pySplit_eq (sep : List Char) (hsep : sep ≠ []) (s : List Char) :
    pySplit sep s =
      match splitFirst sep s with
      | none => [s]
      | some (b, a) => b :: pySplit sep a := by
  unfold pySplit
  cases hn : s.length with
  | zero =>
    have hs : s = [] := List.length_eq_zero.mp hn
    subst hs
    simp [pySplitFuel, splitFirst_nil_eq_none sep hsep]
  | succ k =>
    simp only [hn, pySplitFuel]
    cases hsf : splitFirst sep s with
    | none => rfl
    | some ba =>
      obtain ⟨b, a⟩ := ba
      have hlt := splitFirst_length_lt sep hsep s b a hsf
      show b :: pySplitFuel sep k a = b :: pySplitFuel sep a.length a
      rw [pySplitFuel_congr sep hsep k a.length a (by omega) le_rfl]

theorem pySplitFuel_ne_nil (sep : List Char) (fuel : Nat) (s : List Char) :
    pySplitFuel sep fuel s ≠ [] := by
  cases fuel with
  | zero => simp [pySplitFuel]
  | succ n =>
    simp only [pySplitFuel]
    cases splitFirst sep s with
    | none => simp
    | some ba => obtain ⟨b, a⟩ := ba; simp

theorem pySplit_ne_nil (sep s : List Char) : pySplit sep s ≠ [] :=
  pySplitFuel_ne_nil sep s.length s

theorem pySplitFuel_length (sep : List Char) :
    ∀ fuel s, (pySplitFuel sep fuel s).length = countOccFuel sep fuel s + 1 := by
  intro fuel
  induction fuel with
  | zero => intro s; rfl
  | succ n ih =>
    intro s
    simp only [pySplitFuel, countOccFuel]
    cases splitFirst sep s with
    | none => rfl
    | some ba =>
      obtain ⟨b, a⟩ := ba
      simp [ih a]

/-- The split produces N+1 fragments for N non-overlapping occurrences. -/
theorem pySplit_length (sep s : List Char) :
    (pySplit sep s).length = countOcc sep s + 1 :=
  pySplitFuel_length sep s.length s

theorem joinWith_cons_of_ne_nil {α : Type} (sep x : List α) (l : List (List α))
    (h : l ≠ []) : joinWith sep (x :: l) = x ++ sep ++ joinWith sep l := by
  cases l with
  | nil => exact absurd rfl h
  | cons y rest => rfl

/-- Splitting then rejoining with the separator reconstructs the input. -/
theorem joinWith_pySplit (sep : List Char) (hsep : sep ≠ []) :
    ∀ s : List Char, joinWith sep (pySplit sep s) = s := by
  suffices h : ∀ n (s : List Char), s.length ≤ n → joinWith sep (pySplit sep s) = s by
    exact fun s => h s.length s le_rfl
  intro n
  induction n with
  | zero =>
    intro s hs
    have h0 : s = [] := List.length_eq_zero.mp (Nat.le_zero.mp hs)
    subst h0
    rw [pySplit_eq sep hsep [], splitFirst_nil_eq_none sep hsep]
    rfl
  | succ n ih =>
    intro s hs
    rw [pySplit_eq sep hsep s]
    cases hsf : splitFirst sep s with
    | none => rfl
    | some ba =>
      obtain ⟨b, a⟩ := ba
      have hlt := splitFirst_length_lt sep hsep s b a hsf
      have hd := splitFirst_eq_some sep s b a hsf
      rw [joinWith_cons_of_ne_nil sep b (pySplit sep a) (pySplit_ne_nil sep a),
        ih a (by omega), hd]

theorem segsOf_eq_specSegs : ∀ frags : List (List Char), segsOf frags = specSegs frags := by
  intro frags
  induction frags with
  | nil => rfl
  | cons f rest ih =>
    cases rest with
    | nil =>
      by_cases hf : f = [] <;>
        simp [segsOf, specSegs, joinWith, hf, List.length_pos]
    | cons g rest2 =>
      have hne : (List.map (fun f => if f = [] then [] else [ContentSegment.text f])
          (g :: rest2)) ≠ [] := by simp
      by_cases hf : f = [] <;>
        simp only [segsOf, specSegs, List.map_cons, hf, if_pos, if_neg,
          joinWith_cons_of_ne_nil _ _ _ hne, List.length_pos] at ih ⊢ <;>
        simp [ih, specSegs, hf, joinWith]

theorem reconstructSegs_append (tag : List Char) (l1 l2 : List ContentSegment) :
    reconstructSegs tag (l1 ++ l2) = reconstructSegs tag l1 ++ reconstructSegs tag l2 := by
  induction l1 with
  | nil => rfl
  | cons seg rest ih =>
    cases seg <;> simp [reconstructSegs, ih]

theorem reconstructSegs_segsOf (tag : List Char) :
    ∀ frags : List (List Char), reconstructSegs tag (segsOf frags) = joinWith tag frags := by
  intro frags
  induction frags with
  | nil => rfl
  | cons f rest ih =>
    cases rest with
    | nil =>
      by_cases hf : f = [] <;>
        simp [segsOf, joinWith, reconstructSegs, hf, List.length_pos]
    | cons g rest2 =>
      rw [joinWith_cons_of_ne_nil tag f (g :: rest2) (by simp)]
      by_cases hf : f = [] <;>
        simp [segsOf, hf, List.length_pos, reconstructSegs_append,
          reconstructSegs, ih]

/-- C2: for every content string and non-empty tag, the splitter's output
is exactly the specified segment list over the greedy non-overlapping
split (a `Text` segment per non-empty fragment, one `Image` segment after
every fragment except the last, empty fragments dropped), the split has
N+1 fragments for N occurrences of the tag, and the two spec examples
hold. -/
theorem split_text_by_image_tag_spec :
    (∀ content image_tag : List Char, image_tag ≠ [] →
      split_text_by_image_tag content image_tag = specSegs (pySplit image_tag content) ∧
      (pySplit image_tag content).length = countOcc image_tag content + 1) ∧
    split_text_by_image_tag ("<image>hello <image>world".toList) ("<image>".toList) =
      [ContentSegment.image, ContentSegment.text ("hello ".toList),
        ContentSegment.image, ContentSegment.text ("world".toList)] ∧
    split_text_by_image_tag ("<image><image>".toList) ("<image>".toList) =
      [ContentSegment.image, ContentSegment.image] := by
  refine ⟨fun content image_tag _ => ?_, by decide, by decide⟩
  exact ⟨segsOf_eq_specSegs (pySplit image_tag content),
    pySplit_length image_tag content⟩

/-- Witness for C2 at the spec's first example. -/
theorem split_text_by_image_tag_spec_witness :
    split_text_by_image_tag ("<image>hello <image>world".toList) ("<image>".toList) =
      specSegs (pySplit ("<image>".toList) ("<image>hello <image>world".toList)) ∧
    (pySplit ("<image>".toList) ("<image>hello <image>world".toList)).length =
      countOcc ("<image>".toList) ("<image>hello <image>world".toList) + 1 :=
  split_text_by_image_tag_spec.1 ("<image>hello <image>world".toList)
    ("<image>".toList) (by decide)

/-- C3: concatenating the `Text` payloads in output order, with one copy
of the tag inserted at the position of each `Image` segment, reconstructs
the original content string. -/
theorem split_text_by_image_tag_roundtrip (content image_tag : List Char)
    (htag : image_tag ≠ []) :
    reconstructSegs image_tag (split_text_by_image_tag content image_tag) = content := by
  rw [split_text_by_image_tag, reconstructSegs_segsOf, joinWith_pySplit image_tag htag]

/-- Witness for C3 at the spec's first example. -/
theorem split_text_by_image_tag_roundtrip_witness :
    reconstructSegs ("<image>".toList)
      (split_text_by_image_tag ("<image>hello <image>world".toList) ("<image>".toList)) =
      "<image>hello <image>world".toList :=
  split_text_by_image_tag_roundtrip ("<image>hello <image>world".toList)
    ("<image>".toList) (by decide)

/-- C7: with a non-empty tag and zero occurrences of the tag in the
content (`countOcc` formalizes the non-overlapping occurrence count, and
equals zero exactly when the content has no decomposition around the
tag), the splitter returns a single `Text` segment carrying the whole
content, except that it returns the empty list on empty content. -/
theorem split_text_no_occurrence (content image_tag : List Char)
    (htag : image_tag ≠ []) (hocc : countOcc image_tag content = 0) :
    split_text_by_image_tag content image_tag =
      (if content = [] then [] else [ContentSegment.text content]) ∧
    (countOcc image_tag content = 0 ↔ ¬ ∃ b a, content = b ++ image_tag ++ a) := by
  have hiff : countOcc image_tag content = 0 ↔ ¬ ∃ b a, content = b ++ image_tag ++ a := by
    rw [← splitFirst_eq_none_iff image_tag content]
    unfold countOcc
    cases hn : content.length with
    | zero =>
      have hc : content = [] := List.length_eq_zero.mp hn
      subst hc
      simp [countOccFuel, splitFirst_nil_eq_none image_tag htag]
    | succ k =>
      simp only [countOccFuel]
      cases hsf : splitFirst image_tag content with
      | none => simp
      | some ba => obtain ⟨b, a⟩ := ba; simp
  refine ⟨?_, hiff⟩
  have hnone : splitFirst image_tag content = none := by
    rw [splitFirst_eq_none_iff image_tag content]
    exact hiff.mp hocc
  rw [split_text_by_image_tag, pySplit_eq image_tag htag content, hnone]
  by_cases hc : content = [] <;> simp [segsOf, hc, List.length_pos]

/-- Witness for C7 at content `"plain"` and tag `"<image>"`. -/
theorem split_text_no_occurrence_witness :
    split_text_by_image_tag ("plain".toList) ("<image>".toList) =
      (if "plain".toList = [] then [] else [ContentSegment.text ("plain".toList)]) ∧
    (countOcc ("<image>".toList) ("plain".toList) = 0 ↔
      ¬ ∃ b a, "plain".toList = b ++ "<image>".toList ++ a) :=
  split_text_no_occurrence ("plain".toList) ("<image>".toList) (by decide) (by decide)

/-- The `Message` record as seen by the validator: a `role` string and an
opaque `content` payload (the validator only ever reads `role`). -/
structure Message where
  role : String
  content : List ContentSegment
deriving DecidableEq

/-- The `ValueError`s that `validate_messages` can raise, tagged by the
offending index where the message text reports one. -/
inductive ValidationError : Type
  | tooShort (got : Nat)
  | assistantBeforeUser (i : Nat)
  | consecutiveUser (i : Nat)
  | misplacedSystem (i : Nat)
deriving DecidableEq

/-- Embedding of the `for i, message in enumerate(messages)` scan of
`validate_messages`, carrying the `last_turn` state and the running
index: the three `raise` conditions are checked in source order, and on
acceptance `last_turn` is set to the message's role. -/
def validateLoop (last_turn : String) (i : Nat) : List Message → Except ValidationError Unit
  | [] => Except.ok ()
  | message :: rest =>
    if message.role = "assistant" ∧ last_turn ≠ "user" then
      Except.error (ValidationError.assistantBeforeUser i)
    else if message.role = "user" ∧ last_turn = "user" then
      Except.error (ValidationError.consecutiveUser i)
    else if message.role = "system" ∧ 0 < i then
      Except.error (ValidationError.misplacedSystem i)
    else validateLoop message.role (i + 1) rest

/-- Embedding of `validate_messages(messages)`: the length precondition,
then the scan with `last_turn` initialized to `"assistant"` at index 0. -/
def validate_messages (messages : List Message) : Except ValidationError Unit :=
  if messages.length < 2 then Except.error (ValidationError.tooShort messages.length)
  else validateLoop "assistant" 0 messages

/-- The same scan on the role strings alone (the loop body reads nothing
but `message.role`). -/
def validateRolesLoop (last_turn : String) (i : Nat) : List String → Except ValidationError Unit
  | [] => Except.ok ()
  | r :: rest =>
    if r = "assistant" ∧ last_turn ≠ "user" then
      Except.error (ValidationError.assistantBeforeUser i)
    else if r = "user" ∧ last_turn = "user" then
      Except.error (ValidationError.consecutiveUser i)
    else if r = "system" ∧ 0 < i then
      Except.error (ValidationError.misplacedSystem i)
    else validateRolesLoop r (i + 1) rest

/-- `validate_messages` restricted to the role sequence. -/
def validateRoles (roles : List String) : Except ValidationError Unit :=
  if roles.length < 2 then Except.error (ValidationError.tooShort roles.length)
  else validateRolesLoop "assistant" 0 roles

theorem validateLoop_eq_rolesLoop (last_turn : String) (i : Nat) :
    ∀ messages : List Message,
      validateLoop last_turn i messages =
        validateRolesLoop last_turn i (messages.map Message.role) := by
  intro messages
  induction messages generalizing last_turn i with
  | nil => rfl
  | cons m rest ih =>
    simp only [validateLoop, validateRolesLoop, List.map_cons]
    split
    · rfl
    · split
      · rfl
      · split
        · rfl
        · exact ih m.role (i + 1)

theorem validate_messages_eq_roles (messages : List Message) :
    validate_messages messages = validateRoles (messages.map Message.role) := by
  simp only [validate_messages, validateRoles, List.length_map]
  split
  · rfl
  · exact validateLoop_eq_rolesLoop "assistant" 0 messages

/-- The role the claim's rules compare a message at index `i` against:
the role of the previous message, with the sentinel `"assistant"` in
place of a predecessor for the first message. -/
def prevRole (roles : List String) (i : Nat) : String :=
  if i = 0 then "assistant" else roles.getD (i - 1) ""

/-- Rule violated at index `i` per the claim: an assistant message not
immediately preceded by a user message, a user message immediately
preceded by a user message, or a system message at a positive index; the
rules are mutually exclusive because a message has exactly one role. -/
def ruleViolation (roles : List String) (i : Nat) : Option ValidationError :=
  if roles.getD i "" = "assistant" ∧ prevRole roles i ≠ "user" then
    some (ValidationError.assistantBeforeUser i)
  else if roles.getD i "" = "user" ∧ prevRole roles i = "user" then
    some (ValidationError.consecutiveUser i)
  else if roles.getD i "" = "system" ∧ 0 < i then
    some (ValidationError.misplacedSystem i)
  else none

/-- Expected outcome per the claim: `tooShort` before any scanning for
lists shorter than 2, otherwise the error of the first rule violated at
the lowest offending index, success when no index violates a rule. -/
def specValidate (roles : List String) : Except ValidationError Unit :=
  if roles.length < 2 then Except.error (ValidationError.tooShort roles.length)
  else
    match (List.range roles.length).findSome? (ruleViolation roles) with
    | some e => Except.error e
    | none => Except.ok ()

/-- Success condition per the claim: length at least 2, every system
message at index 0, no user message immediately preceded by a user
message, and every assistant message immediately preceded by a user
message. -/
def rolesOk (roles : List String) : Prop :=
  2 ≤ roles.length ∧
  (∀ i, i < roles.length → roles.getD i "" = "system" → i = 0) ∧
  (∀ i, i < roles.length → roles.getD i "" = "user" → i + 1 < roles.length →
    roles.getD (i + 1) "" ≠ "user") ∧
  (∀ i, i < roles.length → roles.getD i "" = "assistant" →
    0 < i ∧ roles.getD (i - 1) "" = "user")

theorem validateRolesLoop_spec (roles : List String) :
    ∀ n k, k ≤ roles.length → roles.length - k = n →
      validateRolesLoop (prevRole roles k) k (roles.drop k) =
        match (List.range' k (roles.length - k)).findSome? (ruleViolation roles) with
        | some e => Except.error e
        | none => Except.ok () := by
  intro n
  induction n with
  | zero =>
    intro k hk hn
    have hdrop : roles.drop k = [] := List.drop_eq_nil_of_le (by omega)
    rw [hdrop, hn]
    rfl
  | succ n ih =>
    intro k hk hn
    have hklt : k < roles.length := by omega
    have hdrop : roles.drop k = roles.get ⟨k, hklt⟩ :: roles.drop (k + 1) :=
      List.drop_eq_get_cons hklt
    have hgetD : roles.getD k "" = roles.get ⟨k, hklt⟩ := List.getD_eq_get roles "" hklt
    rw [hn, hdrop]
    have hrange : List.range' k (n + 1) = k :: List.range' (k + 1) n := rfl
    rw [hrange]
    simp only [validateRolesLoop, List.findSome?_cons, ← hgetD]
    by_cases h1 : roles.getD k "" = "assistant" ∧ prevRole roles k ≠ "user"
    · rw [if_pos h1]
      have : ruleViolation roles k = some (ValidationError.assistantBeforeUser k) := by
        rw [ruleViolation, if_pos h1]
      rw [this]
    · rw [if_neg h1]
      by_cases h2 : roles.getD k "" = "user" ∧ prevRole roles k = "user"
      · rw [if_pos h2]
        have : ruleViolation roles k = some (ValidationError.consecutiveUser k) := by
          rw [ruleViolation, if_neg h1, if_pos h2]
        rw [this]
      · rw [if_neg h2]
        by_cases h3 : roles.getD k "" = "system" ∧ 0 < k
        · rw [if_pos h3]
          have : ruleViolation roles k = some (ValidationError.misplacedSystem k) := by
            rw [ruleViolation, if_neg h1, if_neg h2, if_pos h3]
          rw [this]
        · rw [if_neg h3]
          have hnone : ruleViolation roles k = none := by
            rw [ruleViolation, if_neg h1, if_neg h2, if_neg h3]
          rw [hnone]
          show validateRolesLoop (roles.getD k "") (k + 1) (roles.drop (k + 1)) =
            match (List.range' (k + 1) n).findSome? (ruleViolation roles) with
            | some e => Except.error e
            | none => Except.ok ()
          have hprev : prevRole roles (k + 1) = roles.getD k "" := by
            simp [prevRole]
          have hrec := ih (k + 1) (by omega) (by omega)
          have hlen : roles.length - (k + 1) = n := by omega
          rw [hlen, hprev] at hrec
          exact hrec

theorem validateRoles_eq_specValidate (roles : List String) :
    validateRoles roles = specValidate roles := by
  rw [validateRoles, specValidate]
  split
  · rfl
  · have h := validateRolesLoop_spec roles (roles.length - 0) 0 (by omega) rfl
    simp only [Nat.sub_zero, List.drop_zero] at h
    rw [List.range_eq_range' roles.length]
    have hprev : prevRole roles 0 = "assistant" := rfl
    rw [hprev] at h
    exact h

theorem ruleViolation_eq_none (roles : List String) (i : Nat) :
    ruleViolation roles i = none ↔
      ¬(roles.getD i "" = "assistant" ∧ prevRole roles i ≠ "user") ∧
      ¬(roles.getD i "" = "user" ∧ prevRole roles i = "user") ∧
      ¬(roles.getD i "" = "system" ∧ 0 < i) := by
  rw [ruleViolation]
  split_ifs with h1 h2 h3
  · exact iff_of_false (by simp) fun h => h.1 h1
  · exact iff_of_false (by simp) fun h => h.2.1 h2
  · exact iff_of_false (by simp) fun h => h.2.2 h3
  · exact iff_of_true rfl ⟨h1, h2, h3⟩

theorem ruleViolation_none_iff (roles : List String) :
    (∀ i, i < roles.length → ruleViolation roles i = none) ↔
      ((∀ i, i < roles.length → roles.getD i "" = "system" → i = 0) ∧
       (∀ i, i < roles.length → roles.getD i "" = "user" → i + 1 < roles.length →
         roles.getD (i + 1) "" ≠ "user") ∧
       (∀ i, i < roles.length → roles.getD i "" = "assistant" →
         0 < i ∧ roles.getD (i - 1) "" = "user")) := by
  constructor
  · intro h
    refine ⟨?_, ?_, ?_⟩
    · intro i hi hsys
      have hnone := (ruleViolation_eq_none roles i).mp (h i hi)
      by_contra hne
      exact hnone.2.2 ⟨hsys, Nat.pos_of_ne_zero hne⟩
    · intro i _ huser hilt hnext
      have hnone := (ruleViolation_eq_none roles (i + 1)).mp (h (i + 1) hilt)
      have hprev : prevRole roles (i + 1) = roles.getD i "" := by simp [prevRole]
      exact hnone.2.1 ⟨hnext, hprev.trans huser⟩
    · intro i hi hast
      have hnone := (ruleViolation_eq_none roles i).mp (h i hi)
      have hprev : prevRole roles i = "user" := by
        by_contra hne
        exact hnone.1 ⟨hast, hne⟩
      rcases Nat.eq_zero_or_pos i with hz | hp
      · rw [hz] at hprev
        simp [prevRole] at hprev
      · refine ⟨hp, ?_⟩
        rw [prevRole, if_neg (by omega)] at hprev
        exact hprev
  · intro ⟨hsys, huser, hast⟩ i hi
    rw [ruleViolation_eq_none]
    refine ⟨?_, ?_, ?_⟩
    · intro ⟨hr, hprev⟩
      obtain ⟨hp, hpu⟩ := hast i hi hr
      exact hprev (by rw [prevRole, if_neg (by omega)]; exact hpu)
    · intro ⟨hr, hprev⟩
      rcases Nat.eq_zero_or_pos i with hz | hp
      · rw [hz] at hprev
        simp [prevRole] at hprev
      · rw [prevRole, if_neg (by omega)] at hprev
        have := huser (i - 1) (by omega) hprev (by omega)
        rw [Nat.sub_add_cancel (by omega)] at this
        exact this hr
    · intro ⟨hr, hp⟩
      have := hsys i hi hr
      omega

/-- C1: `validate_messages` succeeds exactly when the list has at least 2
messages, every system message sits at index 0, no user message is
immediately preceded by a user message, and every assistant message is
immediately preceded by a user message; and its outcome is always the
one described by `specValidate`: `tooShort` before any scanning when the
list is shorter than 2, otherwise the error of the first rule violated
at the lowest offending index. -/
theorem validate_messages_spec (messages : List Message) :
    (validate_messages messages = Except.ok () ↔ rolesOk (messages.map Message.role)) ∧
    validate_messages messages = specValidate (messages.map Message.role) := by
  have heq : validate_messages messages = specValidate (messages.map Message.role) := by
    rw [validate_messages_eq_roles, validateRoles_eq_specValidate]
  refine ⟨?_, heq⟩
  rw [heq]
  set roles := messages.map Message.role with hr
  rw [specValidate, rolesOk]
  constructor
  · intro h
    split at h
    · exact absurd h (by simp)
    · next hge =>
      cases hfs : (List.range roles.length).findSome? (ruleViolation roles) with
      | some e => rw [hfs] at h; exact absurd h (by simp)
      | none =>
        have hall : ∀ i, i < roles.length → ruleViolation roles i = none := fun i hi =>
          List.findSome?_eq_none_iff.mp hfs i (List.mem_range.mpr hi)
        exact ⟨by omega, (ruleViolation_none_iff roles).mp hall⟩
  · intro ⟨h2, hrest⟩
    rw [if_neg (by omega)]
    have hall := (ruleViolation_none_iff roles).mpr hrest
    have hfs : (List.range roles.length).findSome? (ruleViolation roles) = none :=
      List.findSome?_eq_none_iff.mpr fun i hi => hall i (List.mem_range.mp hi)
    rw [hfs]

instance (roles : List String) : Decidable (rolesOk roles) := by
  unfold rolesOk
  infer_instance

/-- Witness for C1: the spec example `["system","user","assistant"]`
succeeds, and `["user","user"]` fails `ConsecutiveUser` at index 1. -/
theorem validate_messages_spec_witness :
    validate_messages [⟨"system", []⟩, ⟨"user", []⟩, ⟨"assistant", []⟩] = Except.ok () ∧
    validate_messages [⟨"user", []⟩, ⟨"user", []⟩] =
      specValidate (([⟨"user", []⟩, ⟨"user", []⟩] : List Message).map Message.role) :=
  ⟨(validate_messages_spec [⟨"system", []⟩, ⟨"user", []⟩, ⟨"assistant", []⟩]).1.mpr
      (by decide),
    (validate_messages_spec [⟨"user", []⟩, ⟨"user", []⟩]).2⟩

/-- C9: the outcome of `validate_messages` depends only on the sequence
of role values: message lists with pointwise-equal roles validate to the
same result, error index included. -/
theorem validate_messages_role_determined (m1 m2 : List Message)
    (h : m1.map Message.role = m2.map Message.role) :
    validate_messages m1 = validate_messages m2 := by
  rw [validate_messages_eq_roles, validate_messages_eq_roles, h]

/-- Witness for C9: same roles, different contents, same outcome. -/
theorem validate_messages_role_determined_witness :
    validate_messages [⟨"user", [ContentSegment.text ("hi".toList)]⟩, ⟨"assistant", []⟩] =
      validate_messages [⟨"user", []⟩, ⟨"assistant", [ContentSegment.image]⟩] :=
  validate_messages_role_determined
    [⟨"user", [ContentSegment.text ("hi".toList)]⟩, ⟨"assistant", []⟩]
    [⟨"user", []⟩, ⟨"assistant", [ContentSegment.image]⟩] (by rfl)

/-- Index reported by a validation error, when it reports one. -/
def errIndex : ValidationError → Option Nat
  | ValidationError.tooShort _ => none
  | ValidationError.assistantBeforeUser i => some i
  | ValidationError.consecutiveUser i => some i
  | ValidationError.misplacedSystem i => some i

/-- C10: `validate_messages` never rejects a message whose role is
outside `{"system", "user", "assistant"}`: every indexed failure points
at a message whose role is one of the three; the only effect of an
unknown role is through `last_turn`, so an assistant message immediately
following one is rejected. -/
theorem validate_messages_unknown_role :
    (∀ (messages : List Message) (e : ValidationError) (i : Nat),
      validate_messages messages = Except.error e → errIndex e = some i →
      (messages.map Message.role).getD i "" ∈ (["system", "user", "assistant"] : List String)) ∧
    validate_messages [⟨"tool", []⟩, ⟨"assistant", []⟩] =
      Except.error (ValidationError.assistantBeforeUser 1) := by
  constructor
  · intro messages e i herr hidx
    rw [validate_messages_eq_roles, validateRoles_eq_specValidate] at herr
    set roles := messages.map Message.role with hr
    rw [specValidate] at herr
    split at herr
    · have he : ValidationError.tooShort roles.length = e := by
        injection herr
      rw [← he] at hidx
      simp [errIndex] at hidx
    · cases hfs : (List.range roles.length).findSome? (ruleViolation roles) with
      | none => rw [hfs] at herr; exact absurd herr (by simp)
      | some e2 =>
        rw [hfs] at herr
        have he : e2 = e := by injection herr
        subst he
        obtain ⟨j, _, hj⟩ := List.exists_of_findSome?_eq_some hfs
        rw [ruleViolation] at hj
        split_ifs at hj with h1 h2 h3
        · have he2 : ValidationError.assistantBeforeUser j = e2 := by injection hj
          rw [← he2] at hidx
          have hij : i = j := by simpa [errIndex] using hidx.symm
          rw [hij, h1.1]
          simp
        · have he2 : ValidationError.consecutiveUser j = e2 := by injection hj
          rw [← he2] at hidx
          have hij : i = j := by simpa [errIndex] using hidx.symm
          rw [hij, h2.1]
          simp
        · have he2 : ValidationError.misplacedSystem j = e2 := by injection hj
          rw [← he2] at hidx
          have hij : i = j := by simpa [errIndex] using hidx.symm
          rw [hij, h3.1]
          simp
  · rfl

/-- Witness for C10: the failure of `["user","user"]` points at a message
whose role is one of the three known roles. -/
theorem validate_messages_unknown_role_witness :
    (([⟨"user", []⟩, ⟨"user", []⟩] : List Message).map Message.role).getD 1 "" ∈
      (["system", "user", "assistant"] : List String) :=
  validate_messages_unknown_role.1 [⟨"user", []⟩, ⟨"user", []⟩]
    (ValidationError.consecutiveUser 1) 1 (by rfl) (by rfl)

end TorchtuneData
